import Mathlib

/-!
Verification development for the `cozy` terminal e-book reader.

The development shallowly embeds the core of the program:
* the HTML-to-styled-text renderer (`ebook/renderer.go`): `renderNode`,
  `renderElement`, `writeStyledText`, `justifyText`, `RenderWithHeadings`;
* the reader navigation model (`tui` reader): `nextHeading`, `prevHeading`,
  `LoadBook`, `updateViewport`;
* the reading-progress store (`config` progress): `GetBookProgress`,
  `SetBookProgress` and the spec-level `save`/`load` contract.

Modelling conventions, applied throughout:
* Go strings are Lean `String`s; Go byte lengths are modelled as character
  counts (identical on ASCII, which is all the claims exercise).
* Go `int` is `Int` where a negative value is behaviourally relevant
  (widths, chapter indices, division), `Nat` where the source only ever
  produces counts (line numbers, list levels are kept as `Int` where the
  source can drive them negative).
* `lipgloss` styling (colour and bold/italic ANSI sequences) never changes
  the newline structure or the wrapped/justified text the claims are about;
  it is modelled as the identity on the text, keeping only the
  structure-affecting decorations (heading markers, blockquote border,
  code padding, rule characters).
* `strings.Repeat` panics in Go on a negative count; the render state
  carries a `panicked` flag that records this.  Output accumulated after a
  panic is a model artefact (the Go program dies at that point).
* The bubbles viewport is an external display component; its
  `SetYOffset`/`GotoTop` are modelled as plain assignments to the line
  offset (the clamping to the display height it performs is screen-layout
  behaviour the specification places outside the core).
* The external HTML parser (`golang.org/x/net/html`) is out of scope: the
  renderer is embedded over already-parsed markup trees (`Node`), matching
  the data model of the specification.  The word-wrapping dependency
  (`muesli/reflow`) is modelled as a greedy word wrap; no claim depends on
  its exact break positions.
-/

/-- Go `unicode.IsSpace` restricted to the ASCII whitespace characters the
renderer can encounter. -/
def isSpaceGo (c : Char) : Bool :=
  c = ' ' || c = '\t' || c = '\n' || c = '\x0b' || c = '\x0c' || c = '\r'

/-- `strings.TrimSpace` on the character list: drop whitespace from both
ends. -/
def trimChars (l : List Char) : List Char :=
  ((l.dropWhile isSpaceGo).reverse.dropWhile isSpaceGo).reverse

/-- `strings.TrimSpace`. -/
def trimGo (s : String) : String :=
  ⟨trimChars s.data⟩

/-- `strings.Split(s, "\n")` on the character list.  Always returns a
non-empty list; empty pieces are kept. -/
def splitNLc : List Char → List (List Char)
  | [] => [[]]
  | c :: cs =>
    if c = '\n' then [] :: splitNLc cs
    else
      match splitNLc cs with
      | h :: t => (c :: h) :: t
      | [] => [[c]]

/-- `strings.Join(pieces, "\n")` on character lists. -/
def joinNLc : List (List Char) → List Char
  | [] => []
  | [l] => l
  | l :: ls => l ++ '\n' :: joinNLc ls

/-- The lines of a string, as split on `"\n"`. -/
def linesOf (s : String) : List String :=
  (splitNLc s.data).map fun l => ⟨l⟩

/-- Join lines with `"\n"`. -/
def joinNL (ls : List String) : String :=
  ⟨joinNLc (ls.map String.data)⟩

/-- Number of lines of a string (count of newline characters plus one),
the line coordinate system used by heading anchors and the viewport. -/
def numLines (s : String) : Nat :=
  (splitNLc s.data).length

/-- The `i`-th line of a string (empty when out of range). -/
def lineAt (s : String) (i : Nat) : String :=
  ⟨(splitNLc s.data).getD i []⟩

/-- `strings.Fields` on the character list: maximal runs of non-whitespace
characters.  Structured with a one-character lookahead so the recursion is
structural; `fieldsChars_cons_nonspace` below recovers the usual
`takeWhile`/`dropWhile` characterisation. -/
def fieldsChars : List Char → List (List Char)
  | [] => []
  | c :: cs =>
    let rest := fieldsChars cs
    if isSpaceGo c then rest
    else
      match cs, rest with
      | [], _ => [[c]]
      | d :: _, w :: ws => if isSpaceGo d then [c] :: rest else (c :: w) :: ws
      | _ :: _, [] => [[c]]

/-- `strings.Fields`. -/
def fieldsGo (s : String) : List String :=
  (fieldsChars s.data).map fun l => ⟨l⟩

/-- A run of `n` spaces. -/
def spacesStr (n : Nat) : String :=
  ⟨List.replicate n ' '⟩

/-- `strings.Repeat(s, n)` for a Go `int` count: `none` models the Go
panic on a negative count. -/
def repeatStr (s : String) (n : Int) : Option String :=
  if n < 0 then none else some (String.join (List.replicate n.toNat s))

/-- Sum of the lengths of a list of words (Go: loop accumulating
`len(word)`). -/
def sumLens (ws : List String) : Nat :=
  (ws.map String.length).sum

/-- The justified-line builder of `justifyText`: each word except the last
is followed by `base` spaces, and the gaps with index `< extra` get one
more (Go loop over `words` with `strings.Repeat(" ", spacesPerGap)` and the
conditional extra space). -/
def buildJustified (base extra : Nat) : Nat → List String → String
  | _, [] => ""
  | _, [w] => w
  | i, w :: rest =>
    w ++ spacesStr (base + if i < extra then 1 else 0) ++
      buildJustified base extra (i + 1) rest

/-- Go `int(float64(width) * 0.75)`: `0.75` and the products involved are
exactly representable, so this is truncation of `width * 3 / 4` toward
zero. -/
def justifyThreshold (width : Int) : Int :=
  Int.tdiv (width * 3) 4

/-- One line of `justifyText` (renderer.go lines 355-410): trim, pass
blank lines through as empty, skip last/only/one-word/short lines, skip
when there is not enough space, otherwise distribute
`totalSpaces = width - wordLen` over `gaps = len(words)-1` left-biased. -/
def justifyLine (total : Nat) (width : Int) (i : Nat) (rawLine : String) : String :=
  let line := trimGo rawLine
  if line = "" then ""
  else
    let words := fieldsGo line
    if i = total - 1 ∨ total = 1 ∨ words.length ≤ 1 ∨
        (line.length : Int) < justifyThreshold width then line
    else
      let wordLen : Int := (sumLens words : Nat)
      let totalSpaces : Int := width - wordLen
      let gaps : Int := (words.length : Int) - 1
      if gaps ≤ 0 ∨ totalSpaces < gaps then line
      else
        buildJustified (Int.tdiv totalSpaces gaps).toNat
          (Int.tmod totalSpaces gaps).toNat 0 words

/-- Index-aware map used to run `justifyLine` over the split lines
(the Go `for i, line := range lines` loop). -/
def mapIdxFrom (f : Nat → α → β) : Nat → List α → List β
  | _, [] => []
  | i, a :: as => f i a :: mapIdxFrom f (i + 1) as

/-- `justifyText(text, width)` (renderer.go lines 347-413): split on
newlines, justify each line, re-join.  The Go guard `len(lines) == 0` is
unreachable (`strings.Split` never returns an empty slice) and is dropped
from the model. -/
def justifyText (text : String) (width : Int) : String :=
  let lines := linesOf text
  joinNL (mapIdxFrom (justifyLine lines.length width) 0 lines)

/-- Greedy packing of words into lines of at most `limit` characters
(words longer than `limit` get their own line). -/
def wrapWords (limit : Nat) (cur : List Char) : List (List Char) → List Char
  | [] => cur
  | w :: ws =>
    if cur.length + 1 + w.length ≤ limit then
      wrapWords limit (cur ++ ' ' :: w) ws
    else cur ++ '\n' :: wrapWords limit w ws

/-- Wrap a single newline-free line. -/
def wrapLine (limit : Nat) (line : List Char) : List Char :=
  match fieldsChars line with
  | [] => line
  | w :: ws => wrapWords limit w ws

/-- Model of the external `muesli/reflow` word wrapper used by the
renderer: existing newlines are kept, and each line is wrapped at word
boundaries to at most `limit` columns.  No claim depends on the precise
break positions chosen by the library. -/
def wordwrapGo (s : String) (limit : Int) : String :=
  if limit ≤ 0 then s
  else ⟨joinNLc ((splitNLc s.data).map (wrapLine limit.toNat))⟩

/-- A markup tree as handed to the renderer by the external HTML parser:
text nodes, element nodes with a tag and children, and the document root.
Comment and doctype nodes are skipped by `renderNode` without visiting
their children, so they are equivalent to their absence and are not
modelled. -/
inductive Node where
  | text : String → Node
  | elem : String → List Node → Node
  | doc : List Node → Node

/-- `renderContext`: the inherited style state of the recursive walk.
`listLevel` is a Go `int`; the `li` case reads `listLevel - 1`, which is
negative for an `li` outside any list. -/
structure renderContext where
  inHeading : Nat
  inBlockquote : Bool
  inPre : Bool
  inCode : Bool
  inEmphasis : Bool
  inStrong : Bool
  listLevel : Int
  inListItem : Bool

/-- The zero-valued context `&renderContext{}` the render starts with. -/
def ctx0 : renderContext :=
  ⟨0, false, false, false, false, false, 0, false⟩

/-- The context handed to an element's children: `newCtx := ctx.clone()`
followed by the per-element mutations of `renderElement`.  Value passing
realises the Go clone-then-mutate. -/
def childCtx (tag : String) (ctx : renderContext) : renderContext :=
  if tag = "h1" then { ctx with inHeading := 1 }
  else if tag = "h2" then { ctx with inHeading := 2 }
  else if tag = "h3" then { ctx with inHeading := 3 }
  else if tag = "h4" then { ctx with inHeading := 4 }
  else if tag = "h5" then { ctx with inHeading := 5 }
  else if tag = "h6" then { ctx with inHeading := 6 }
  else if tag = "blockquote" then { ctx with inBlockquote := true }
  else if tag = "pre" then { ctx with inPre := true, inCode := true }
  else if tag = "code" then
    if ctx.inPre then ctx else { ctx with inCode := true }
  else if tag = "em" ∨ tag = "i" then { ctx with inEmphasis := true }
  else if tag = "strong" ∨ tag = "b" then { ctx with inStrong := true }
  else if tag = "ul" ∨ tag = "ol" then { ctx with listLevel := ctx.listLevel + 1 }
  else if tag = "li" then { ctx with inListItem := true }
  else ctx

/-- Mutable render state: the output builder, the recorded h2/h3 anchor
line numbers, and whether a Go panic (negative `strings.Repeat` count)
has occurred.  Output accumulated after a panic is a model artefact. -/
structure RState where
  out : String
  anchors : List Nat
  panicked : Bool

/-- `out.WriteString(s)`. -/
def emit (s : String) (st : RState) : RState :=
  { st with out := st.out ++ s }

/-- `tag` is one of `h1`..`h6`. -/
def isHeadingTag (tag : String) : Bool :=
  tag = "h1" || tag = "h2" || tag = "h3" || tag = "h4" || tag = "h5" || tag = "h6"

/-- `strings.Repeat("#", n)`. -/
def hashMarks (n : Nat) : String :=
  ⟨List.replicate n '#'⟩

/-- The blockquote decoration loop of `writeStyledText`: blank wrapped
lines are skipped entirely; other lines get the left border and padding
(colour and italics are presentation-only and omitted), with a newline
after every line but the last. -/
def quoteBlock (n : Nat) : Nat → List String → String
  | _, [] => ""
  | i, l :: ls =>
    (if trimGo l = "" then ""
     else "┃ " ++ l ++ if i < n - 1 then "\n" else "") ++ quoteBlock n (i + 1) ls

/-- The `lipgloss` `Padding(0, 1)` applied to code text: one space either
side of every line (colours omitted). -/
def padCode (t : String) : String :=
  joinNL ((linesOf t).map fun l => " " ++ l ++ " ")

/-- `writeStyledText` (renderer.go lines 214-300): width defaulting,
heading marker and wrap, the blockquote early return, code padding, and
wrap-then-justify for plain body text.  Colour/bold/italic styling leaves
the text unchanged and is dropped. -/
def writeStyledText (w : Int) (text : String) (ctx : renderContext) (st : RState) : RState :=
  let eff : Int := if w ≤ 0 then 80 else w
  let text :=
    if 0 < ctx.inHeading then wordwrapGo (hashMarks ctx.inHeading ++ " " ++ text) eff
    else text
  if ctx.inBlockquote then
    let ls := linesOf (wordwrapGo text (max (eff - 4) 40))
    emit (quoteBlock ls.length 0 ls) st
  else if ctx.inCode then
    let t := if ctx.inPre then wordwrapGo text (max (eff - 2) 40) else text
    emit (padCode t) st
  else
    let t := wordwrapGo text eff
    let t := if ctx.inHeading = 0 ∧ trimGo t ≠ "" then justifyText t eff else t
    emit t st

/-- The `hr` arm of `renderElement`: paragraph break, a rule of
`min(width, 80)` dash characters — the raw width, not the defaulted one,
so a negative width makes `strings.Repeat` panic — then a paragraph
break.  Children are not rendered (`return`). -/
def hrRender (w : Int) (st : RState) : RState :=
  let st := emit "\n\n" st
  let st :=
    match repeatStr "─" (min w 80) with
    | none => { st with panicked := true }
    | some rule => emit rule st
  emit "\n\n" st

/-- The output `renderElement` produces before rendering an element's
children (renderer.go lines 121-195): the paragraph/line breaks, the
h2/h3 anchor capture — the newline count of the buffer right after the
paragraph break — and the `li` indent of `listLevel - 1` two-space
repeats, which panics in Go when the element sits outside any list. -/
def elemOpen (tag : String) (ctx : renderContext) (st : RState) : RState :=
  if isHeadingTag tag then
    let st := emit "\n\n" st
    if tag = "h2" ∨ tag = "h3" then
      { st with anchors := st.anchors ++ [st.out.data.count '\n'] }
    else st
  else if tag = "p" then
    if ctx.inListItem then st else emit "\n\n" st
  else if tag = "blockquote" ∨ tag = "pre" then emit "\n\n" st
  else if tag = "ul" ∨ tag = "ol" then emit "\n" st
  else if tag = "li" then
    match repeatStr "  " (ctx.listLevel - 1) with
    | none => { st with panicked := true }
    | some ind => emit ("\n" ++ ind ++ "• ") st
  else st

/-- The closing newline `renderElement` writes after block elements
(renderer.go lines 203-210). -/
def elemClose (tag : String) (st : RState) : RState :=
  if isHeadingTag tag ∨ tag = "blockquote" ∨ tag = "pre" ∨ tag = "ul" ∨ tag = "ol" then
    emit "\n" st
  else st

mutual

/-- `renderNode` (renderer.go lines 91-114) with `renderElement`
(lines 117-211) inlined in the element case: text nodes are trimmed
unless inside `pre` and dropped when blank; `br` and `hr` return without
rendering children; every other element writes its opening output, renders
its children under `childCtx tag ctx` (the cloned-and-mutated context),
and writes its closing newline; the document renders its children in
order. -/
def renderNode (w : Int) (n : Node) (ctx : renderContext) (st : RState) : RState :=
  match n with
  | .text s =>
    let t := if ctx.inPre then s else trimGo s
    if t = "" then st else writeStyledText w t ctx st
  | .elem tag cs =>
    if tag = "br" then emit "\n" st
    else if tag = "hr" then hrRender w st
    else elemClose tag (renderNodes w cs (childCtx tag ctx) (elemOpen tag ctx st))
  | .doc cs => renderNodes w cs ctx st

/-- The child loop `for c := n.FirstChild; ...`: each child is rendered
with the same context, threading only the output state. -/
def renderNodes (w : Int) (cs : List Node) (ctx : renderContext) (st : RState) : RState :=
  match cs with
  | [] => st
  | c :: rest => renderNodes w rest ctx (renderNode w c ctx st)

end

/-- A full render pass: empty builder, zero context, fresh anchor list
(`RenderWithHeadings` resets `headingPositions`). -/
def renderRun (w : Int) (n : Node) : RState :=
  renderNode w n ctx0 ⟨"", [], false⟩

/-- The renderer's result record. -/
structure RenderResult where
  text : String
  headingPositions : List Nat

/-- `Renderer.RenderWithHeadings` on a parsed tree: render, then
`strings.TrimSpace` the accumulated output.  (`Render` is the same
traversal returning only the text.) -/
def renderWithHeadings (w : Int) (n : Node) : RenderResult :=
  let st := renderRun w n
  { text := trimGo st.out, headingPositions := st.anchors }

/-- `strings.ReplaceAll` on character lists (left-to-right,
non-overlapping).  The program only calls it with non-empty patterns; an
empty pattern is passed through unchanged. -/
def replaceAllc (pat repl : List Char) : List Char → List Char
  | [] => []
  | c :: cs =>
    if h : pat ≠ [] ∧ pat.isPrefixOf (c :: cs) then
      repl ++ replaceAllc pat repl ((c :: cs).drop pat.length)
    else c :: replaceAllc pat repl cs
termination_by l => l.length
decreasing_by
  · have hp : 1 ≤ pat.length := by
      cases pat with
      | nil => exact absurd rfl h.1
      | cons p ps => simp
    simp only [List.length_drop, List.length_cons]
    omega
  · simp

/-- `stripHTMLTags` (epub.go): drop every character between `<` and `>`,
tracking the `inTag` flag. -/
def stripTags (inTag : Bool) : List Char → List Char
  | [] => []
  | c :: cs =>
    if c = '<' then stripTags true cs
    else if c = '>' then stripTags false cs
    else if inTag then stripTags inTag cs
    else c :: stripTags inTag cs

/-- `strings.Join(lines, sep)`. -/
def joinWith (sep : String) : List String → String
  | [] => ""
  | [x] => x
  | x :: xs => x ++ sep ++ joinWith sep xs

/-- The block-closing tags `htmlToText` maps to line breaks. -/
def blockCloseTags : List String :=
  ["</p>", "</div>", "</h1>", "</h2>", "</h3>", "</h4>", "</h5>", "</h6>",
   "<br>", "<br/>", "</li>"]

/-- `htmlToText` (epub.go lines 272-296), the plain-text fallback used
when structured rendering yields only blank output: insert a newline
after each block-closing tag, strip all tags, then trim every line, drop
the blank ones and join with blank lines. -/
def htmlToText (h : String) : String :=
  let r := blockCloseTags.foldl
    (fun acc e => (⟨replaceAllc e.data (e.data ++ ['\n']) acc.data⟩ : String)) h
  joinWith "\n\n" (((linesOf (⟨stripTags false r.data⟩ : String)).map trimGo).filter (· ≠ ""))

/-- `RenderToStyledTextWithHeadings` on a parsed tree: a blank structured
render degrades to the plain-text extraction of the raw markup string,
with no anchors.  (The parse-failure fallback lives in the external
parser boundary and is not reachable for an already-parsed tree.) -/
def renderToStyledTextWithHeadings (raw : String) (tree : Node) (w : Int) : RenderResult :=
  let res := renderWithHeadings w tree
  if trimGo res.text = "" then { text := htmlToText raw, headingPositions := [] }
  else res

/-- `BookProgress` (config progress store).  The `finished` field is
modelled from the spec: the Reading Position Record carries a
`finished: bool` (spec section 3) and the library view reads
`bookProgress.Finished` and calls `SetBookFinished`, but the progress-store
revision under src lacks the field; Go zero-values it when absent. -/
structure BookProgress where
  bookPath : String
  currentChapter : Int
  scrollOffset : Int
  finished : Bool

/-- `ProgressData`: the per-book progress mapping, keyed by book path.
The Go map is modelled as an association list with first-match lookup;
updates remove the old binding, preserving the one-record-per-key map
semantics. -/
structure ProgressData where
  books : List (String × BookProgress)

/-- `GetBookProgress`. -/
def getBookProgress (p : ProgressData) (bookPath : String) : Option BookProgress :=
  (p.books.find? fun e => e.1 = bookPath).map fun e => e.2

/-- `SetBookProgress(bookPath, chapter, offset)`: store a fresh record for
the key.  The record literal omits `finished`, so Go zero-values it to
`false`. -/
def setBookProgress (p : ProgressData) (bookPath : String) (chapter offset : Int) : ProgressData :=
  ⟨(bookPath, ⟨bookPath, chapter, offset, false⟩) ::
    p.books.filter fun e => e.1 ≠ bookPath⟩

/-- Modelled from the spec: the store contract
`save(bookKey, chapter, offset, finished)` (spec section 4.4).  The
implementation of the finished-aware save (`SetBookFinished` and the
revision of `SetBookProgress` that keeps `finished`) is referenced by the
library view but missing from the sources under src. -/
def saveProgress (p : ProgressData) (bookKey : String) (chapter offset : Int)
    (finished : Bool) : ProgressData :=
  ⟨(bookKey, ⟨bookKey, chapter, offset, finished⟩) ::
    p.books.filter fun e => e.1 ≠ bookKey⟩

/-- The empty store (`progress.json` absent: `Books` is an empty map). -/
def emptyProgress : ProgressData := ⟨[]⟩

/-- Book formats. -/
inductive Format where
  | epub
  | txt

/-- A chapter: its title, the raw markup string, and — for an EPUB — the
tree the external parser produces for it.  `order` is a display aid the
reader never consults. -/
structure Chapter where
  title : String
  raw : String
  content : Node

/-- A book as handed to the reader. -/
structure Book where
  path : String
  format : Format
  chapters : List Chapter

/-- `Book.GetChapter`: nil outside `[0, len)`. -/
def getChapter (b : Book) (i : Int) : Option Chapter :=
  if i < 0 then none
  else b.chapters[i.toNat]?

/-- `ReaderModel`: the reader-view state the navigation messages act on.
`width` is the viewport width; `content` the rendered chapter text the
viewport displays; `yOffset` the viewport scroll offset.  Chapter index
and offsets are Go ints. -/
structure ReaderState where
  book : Book
  currentChapter : Int
  headingPositions : List Nat
  yOffset : Int
  content : String
  width : Int
  progress : ProgressData

/-- `updateViewport` (reader, lines 183-214): re-render the current
chapter at the viewport width (defaulting a non-positive width to 80),
store the text and the anchors, and go to the top.  An out-of-range
chapter index leaves the state unchanged (`GetChapter` returned nil).
`viewport.SetContent`/`GotoTop` set the content and zero the offset. -/
def updateViewport (m : ReaderState) : ReaderState :=
  match getChapter m.book m.currentChapter with
  | none => m
  | some ch =>
    let rw : Int := if m.width ≤ 0 then 80 else m.width
    match m.book.format with
    | .epub =>
      let res := renderToStyledTextWithHeadings ch.raw ch.content rw
      { m with content := res.text, headingPositions := res.headingPositions,
               yOffset := 0 }
    | .txt =>
      { m with content := wordwrapGo ch.raw rw, headingPositions := [],
               yOffset := 0 }

/-- The `for _, headingLine := range m.headingPositions` scan of the
`nextHeading` case: the first anchor in list order strictly greater than
the current line (`-1`, here `none`, when the loop finds nothing). -/
def findFirstGT (ps : List Nat) (cur : Int) : Option Nat :=
  match ps with
  | [] => none
  | p :: rest => if (p : Int) > cur then some p else findFirstGT rest cur

/-- The downward scan of the `prevHeading` case: the last anchor in list
order strictly less than the current line. -/
def findLastLT (ps : List Nat) (cur : Int) : Option Nat :=
  match ps with
  | [] => none
  | p :: rest =>
    match findLastLT rest cur with
    | some q => some q
    | none => if (p : Int) < cur then some p else none

/-- The `NextHeading` key case of `ReaderModel.Update` (lines 242-265):
jump to the first anchor after the current line, else advance to the next
chapter when one exists (`updateViewport` recomputes the anchors and goes
to the top), else do nothing. -/
def nextHeading (m : ReaderState) : ReaderState :=
  match findFirstGT m.headingPositions m.yOffset with
  | some a => { m with yOffset := (a : Int) }
  | none =>
    if m.currentChapter < (m.book.chapters.length : Int) - 1 then
      updateViewport { m with currentChapter := m.currentChapter + 1 }
    else m

/-- The `PrevHeading` key case of `ReaderModel.Update` (lines 267-295):
jump to the last anchor before the current line, else move to the
previous chapter when one exists and land on its last anchor if it has
any. -/
def prevHeading (m : ReaderState) : ReaderState :=
  match findLastLT m.headingPositions m.yOffset with
  | some a => { m with yOffset := (a : Int) }
  | none =>
    if m.currentChapter > 0 then
      let m2 := updateViewport { m with currentChapter := m.currentChapter - 1 }
      match m2.headingPositions.getLast? with
      | some a => { m2 with yOffset := (a : Int) }
      | none => m2
    else m

/-- `LoadBook` (reader, lines 152-170): restore saved progress for the
book when present, clamping a stale chapter index (`>= ChapterCount`) to
0, render, and restore the scroll offset; otherwise start at chapter 0.
`viewport.SetYOffset` restores the saved offset. -/
def loadBook (m : ReaderState) (book : Book) : ReaderState :=
  let m := { m with book := book }
  match getBookProgress m.progress book.path with
  | some saved =>
    let cur := saved.currentChapter
    let cur := if cur ≥ (book.chapters.length : Int) then 0 else cur
    let m2 := updateViewport { m with currentChapter := cur }
    { m2 with yOffset := saved.scrollOffset }
  | none => updateViewport { m with currentChapter := 0 }

/-- `NextChapter` key case: advance below the last chapter, no wrap. -/
def nextChapter (m : ReaderState) : ReaderState :=
  if m.currentChapter < (m.book.chapters.length : Int) - 1 then
    updateViewport { m with currentChapter := m.currentChapter + 1 }
  else m

/-- `PrevChapter` key case: step back above chapter 0, no wrap. -/
def prevChapter (m : ReaderState) : ReaderState :=
  if m.currentChapter > 0 then
    updateViewport { m with currentChapter := m.currentChapter - 1 }
  else m

/-- The anchor list the navigation model holds after `updateViewport`
re-renders chapter `i`, written out along the specification of
`nextChapter`/`prevChapter` ("recomputes anchors by re-rendering that
chapter"): the renderer's anchors for an EPUB chapter, none for plain
text or a missing chapter. -/
def specAnchorsOfChapter (b : Book) (w : Int) (i : Int) : List Nat :=
  match getChapter b i with
  | none => []
  | some ch =>
    let rw : Int := if w ≤ 0 then 80 else w
    match b.format with
    | .epub => (renderToStyledTextWithHeadings ch.raw ch.content rw).headingPositions
    | .txt => []

/-- The context `renderNode` is called with at the end of a path of child
indices below a node, per the element deltas of `childCtx`: descending
into child `i` of an element applies that element's delta, the document
root applies none.  This is the ancestors-only derivation of the Style
Context the copy-on-descend claim is about. -/
def ctxSeen (ctx : renderContext) : Node → List Nat → Option renderContext
  | _, [] => some ctx
  | .text _, _ :: _ => none
  | .elem t cs, i :: p =>
    match cs[i]? with
    | some c => ctxSeen (childCtx t ctx) c p
    | none => none
  | .doc cs, i :: p =>
    match cs[i]? with
    | some c => ctxSeen ctx c p
    | none => none

mutual

/-- Every `li` element of the tree sits at list depth at least one in the
context it is rendered under (`childCtx` increments `listLevel` at
`ul`/`ol`).  This is exactly the condition under which the `li` indent
`strings.Repeat("  ", listLevel-1)` has a non-negative count. -/
def liSafeB (ctx : renderContext) : Node → Bool
  | .text _ => true
  | .elem tag cs =>
    (if tag = "li" then decide (1 ≤ ctx.listLevel) else true) &&
      liSafeBs (childCtx tag ctx) cs
  | .doc cs => liSafeBs ctx cs

/-- `liSafeB` over a child list. -/
def liSafeBs (ctx : renderContext) : List Node → Bool
  | [] => true
  | c :: rest => liSafeB ctx c && liSafeBs ctx rest

end

/-- Stated from the specification of the justifier: the justified line is
the word sequence interleaved with the given gap widths. -/
def specJustified : List String → List Nat → String
  | [], _ => ""
  | [w], _ => w
  | w :: rest, g :: gs => w ++ spacesStr g ++ specJustified rest gs
  | w :: rest, [] => w ++ specJustified rest []

/-- Stated from the specification of the justifier: gap `g` gets
`base` spaces plus one extra for the first `extra` gaps (left-biased
remainder distribution). -/
def specGapSizes (base extra gaps : Nat) : List Nat :=
  (List.range gaps).map fun g => base + if g < extra then 1 else 0

/-! Helper lemmas about the string primitives. -/

/-- The other panic the raw width reaches: `hr` at a negative width
(`strings.Repeat` with `min(width, 80) < 0`). -/
theorem hr_negative_width_panics :
    (renderRun (-1) (.doc [.elem "body" [.elem "hr" []]])).panicked = true := by decide

theorem splitNLc_ne_nil (l : List Char) : splitNLc l ≠ [] := by
  induction l with
  | nil => simp [splitNLc]
  | cons c cs ih =>
    unfold splitNLc
    by_cases h : c = '\n'
    · simp [h]
    · simp only [h, if_false]
      cases hs : splitNLc cs <;> simp

theorem noNL_mem_splitNLc (l : List Char) : ∀ p ∈ splitNLc l, '\n' ∉ p := by
  induction l with
  | nil => intro p hp; simp [splitNLc] at hp; simp [hp]
  | cons c cs ih =>
    intro p hp
    unfold splitNLc at hp
    by_cases h : c = '\n'
    · simp [h] at hp
      rcases hp with rfl | hp
      · simp
      · exact ih p hp
    · simp only [h, if_false] at hp
      cases hs : splitNLc cs with
      | nil =>
        simp [hs] at hp
        subst hp
        intro hmem
        rcases List.mem_cons.mp hmem with h1 | h1
        · exact h h1.symm
        · simp at h1
      | cons a t =>
        rw [hs] at hp
        rcases List.mem_cons.mp hp with rfl | hp2
        · intro hmem
          rcases List.mem_cons.mp hmem with h1 | h1
          · exact h h1.symm
          · exact ih a (hs ▸ List.mem_cons_self a t) h1
        · exact ih p (hs ▸ List.mem_cons_of_mem a hp2)

theorem splitNLc_noNL (l : List Char) (h : '\n' ∉ l) : splitNLc l = [l] := by
  induction l with
  | nil => rfl
  | cons c cs ih =>
    have hc : c ≠ '\n' := fun hc => h (hc ▸ List.mem_cons_self c cs)
    have hcs : '\n' ∉ cs := fun hm => h (List.mem_cons_of_mem c hm)
    unfold splitNLc
    simp only [hc, if_false, ih hcs]

theorem splitNLc_append_nl (l rest : List Char) (h : '\n' ∉ l) :
    splitNLc (l ++ '\n' :: rest) = l :: splitNLc rest := by
  induction l with
  | nil => simp [splitNLc]
  | cons c cs ih =>
    have hc : c ≠ '\n' := fun hc => h (hc ▸ List.mem_cons_self c cs)
    have hcs : '\n' ∉ cs := fun hm => h (List.mem_cons_of_mem c hm)
    simp only [List.cons_append]
    conv_lhs => unfold splitNLc
    simp only [hc, if_false, ih hcs]

theorem splitNLc_joinNLc (lss : List (List Char)) (hne : lss ≠ [])
    (hnl : ∀ l ∈ lss, '\n' ∉ l) : splitNLc (joinNLc lss) = lss := by
  induction lss with
  | nil => exact absurd rfl hne
  | cons l ls ih =>
    cases ls with
    | nil => exact splitNLc_noNL l (hnl l (List.mem_cons_self l []))
    | cons l2 ls2 =>
      have h1 : joinNLc (l :: l2 :: ls2) = l ++ '\n' :: joinNLc (l2 :: ls2) := rfl
      rw [h1, splitNLc_append_nl l _ (hnl l (List.mem_cons_self _ _))]
      rw [ih (by simp) (fun x hx => hnl x (List.mem_cons_of_mem l hx))]

theorem length_mapIdxFrom (f : Nat → α → β) : ∀ (k : Nat) (l : List α),
    (mapIdxFrom f k l).length = l.length
  | _, [] => rfl
  | k, a :: as => by
    simp only [mapIdxFrom, List.length_cons]
    rw [length_mapIdxFrom f (k + 1) as]

theorem getD_mapIdxFrom (f : Nat → α → β) (b : β) (a : α) : ∀ (l : List α) (k i : Nat),
    i < l.length → (mapIdxFrom f k l).getD i b = f (k + i) (l.getD i a)
  | [], _, i, h => by simp at h
  | x :: xs, k, 0, _ => by simp [mapIdxFrom]
  | x :: xs, k, i + 1, h => by
    simp only [mapIdxFrom, List.getD_cons_succ]
    rw [getD_mapIdxFrom f b a xs (k + 1) i (by simpa using h)]
    congr 1
    omega

theorem mem_trimChars (l : List Char) (c : Char) (h : c ∈ trimChars l) : c ∈ l := by
  unfold trimChars at h
  rw [List.mem_reverse] at h
  have h2 := (List.dropWhile_sublist isSpaceGo).subset h
  rw [List.mem_reverse] at h2
  exact (List.dropWhile_sublist isSpaceGo).subset h2

theorem takeWhile_append_all (p : α → Bool) (xs ys : List α) (h : ∀ x ∈ xs, p x = true) :
    (xs ++ ys).takeWhile p = xs ++ ys.takeWhile p := by
  induction xs with
  | nil => simp
  | cons x xt ih =>
    have hx : p x = true := h x (List.mem_cons_self x xt)
    simp only [List.cons_append, List.takeWhile_cons, hx, if_true]
    rw [ih (fun y hy => h y (List.mem_cons_of_mem x hy))]

theorem dropWhile_append_all (p : α → Bool) (xs ys : List α) (h : ∀ x ∈ xs, p x = true) :
    (xs ++ ys).dropWhile p = ys.dropWhile p := by
  induction xs with
  | nil => simp
  | cons x xt ih =>
    have hx : p x = true := h x (List.mem_cons_self x xt)
    simp only [List.cons_append, List.dropWhile_cons, hx, if_true]
    exact ih (fun y hy => h y (List.mem_cons_of_mem x hy))

/-! Lemmas about `fieldsChars` (the `strings.Fields` model). -/

theorem fieldsChars_eq (c : Char) (cs : List Char) :
    fieldsChars (c :: cs) =
      if isSpaceGo c then fieldsChars cs
      else
        match cs, fieldsChars cs with
        | [], _ => [[c]]
        | d :: _, w :: ws => if isSpaceGo d then [c] :: fieldsChars cs else (c :: w) :: ws
        | _ :: _, [] => [[c]] := rfl

theorem fieldsChars_cons_space (c : Char) (cs : List Char) (h : isSpaceGo c = true) :
    fieldsChars (c :: cs) = fieldsChars cs := by
  rw [fieldsChars_eq]
  simp [h]

theorem fieldsChars_cons_nonspace : ∀ (cs : List Char) (c : Char),
    isSpaceGo c = false →
    fieldsChars (c :: cs) = (c :: cs.takeWhile (fun d => !isSpaceGo d)) ::
      fieldsChars (cs.dropWhile (fun d => !isSpaceGo d)) := by
  intro cs
  induction cs with
  | nil =>
    intro c h
    rw [fieldsChars_eq]
    simp only [h, Bool.false_eq_true, if_false]
    rfl
  | cons d cs2 ih =>
    intro c h
    by_cases hd : isSpaceGo d = true
    · rw [fieldsChars_eq]
      simp only [h, Bool.false_eq_true, if_false, List.takeWhile_cons, List.dropWhile_cons,
        hd, Bool.not_true, Bool.false_eq_true, if_false]
      cases hr : fieldsChars (d :: cs2) with
      | nil => simp [hd, hr]
      | cons w ws => simp [hd, hr]
    · have hd2 : isSpaceGo d = false := by simpa using hd
      have h1 := ih d hd2
      rw [fieldsChars_eq]
      simp only [h, Bool.false_eq_true, if_false, List.takeWhile_cons, List.dropWhile_cons,
        hd2, Bool.not_false, if_true]
      rw [h1]
      simp [hd2]

theorem fieldsChars_props : ∀ (l : List Char), ∀ w ∈ fieldsChars l,
    w ≠ [] ∧ ∀ c ∈ w, isSpaceGo c = false := by
  intro l
  induction l with
  | nil =>
    intro w hw
    rw [show fieldsChars [] = [] from rfl] at hw
    simp at hw
  | cons c cs ih =>
    intro w hw
    by_cases h : isSpaceGo c = true
    · rw [fieldsChars_cons_space c cs h] at hw
      exact ih w hw
    · have h2 : isSpaceGo c = false := by simpa using h
      rw [fieldsChars_eq] at hw
      simp only [h2, Bool.false_eq_true, if_false] at hw
      cases cs with
      | nil =>
        simp at hw
        subst hw
        exact ⟨by simp, by intro d hd; simp at hd; subst hd; exact h2⟩
      | cons d cs2 =>
        cases hr : fieldsChars (d :: cs2) with
        | nil =>
          rw [hr] at hw
          simp at hw
          subst hw
          exact ⟨by simp, by intro e he; simp at he; subst he; exact h2⟩
        | cons w0 ws =>
          rw [hr] at hw
          by_cases hd : isSpaceGo d = true
          · simp only [hd, if_true] at hw
            rcases List.mem_cons.mp hw with rfl | hw2
            · exact ⟨by simp, by intro e he; simp at he; subst he; exact h2⟩
            · exact ih w (hr ▸ hw2)
          · have hd2 : isSpaceGo d = false := by simpa using hd
            simp only [hd2, Bool.false_eq_true, if_false] at hw
            have hw0 := ih w0 (by rw [hr]; exact List.mem_cons_self w0 ws)
            rcases List.mem_cons.mp hw with rfl | hw2
            · refine ⟨by simp, ?_⟩
              intro e he
              rcases List.mem_cons.mp he with rfl | he2
              · exact h2
              · exact hw0.2 e he2
            · exact ih w (by rw [hr]; exact List.mem_cons_of_mem w0 hw2)

theorem fieldsChars_word_append (w rest : List Char) (hw : w ≠ [])
    (hns : ∀ c ∈ w, isSpaceGo c = false)
    (hrest : ∀ r, rest.head? = some r → isSpaceGo r = true) :
    fieldsChars (w ++ rest) = w :: fieldsChars rest := by
  cases w with
  | nil => exact absurd rfl hw
  | cons c w2 =>
    have hc : isSpaceGo c = false := hns c (List.mem_cons_self c w2)
    have hw2 : ∀ x ∈ w2, (fun d => !isSpaceGo d) x = true := by
      intro x hx
      simp [hns x (List.mem_cons_of_mem c hx)]
    have htake : rest.takeWhile (fun d => !isSpaceGo d) = [] := by
      cases rest with
      | nil => rfl
      | cons r rs =>
        have := hrest r rfl
        simp [List.takeWhile_cons, this]
    have hdrop : rest.dropWhile (fun d => !isSpaceGo d) = rest := by
      cases rest with
      | nil => rfl
      | cons r rs =>
        have := hrest r rfl
        simp [List.dropWhile_cons, this]
    rw [List.cons_append, fieldsChars_cons_nonspace _ c hc,
      takeWhile_append_all _ w2 rest hw2, dropWhile_append_all _ w2 rest hw2,
      htake, hdrop, List.append_nil]

theorem fieldsChars_spaces_append (sp rest : List Char)
    (h : ∀ c ∈ sp, isSpaceGo c = true) :
    fieldsChars (sp ++ rest) = fieldsChars rest := by
  induction sp with
  | nil => rfl
  | cons c cs ih =>
    rw [List.cons_append, fieldsChars_cons_space c _ (h c (List.mem_cons_self c cs))]
    exact ih (fun x hx => h x (List.mem_cons_of_mem c hx))

/-! Lemmas about the justified-line builder. -/

theorem fields_buildJustified (base extra : Nat) (hbase : 1 ≤ base) :
    ∀ (words : List String) (i : Nat),
    (∀ w ∈ words, w.data ≠ [] ∧ ∀ c ∈ w.data, isSpaceGo c = false) →
    fieldsChars (buildJustified base extra i words).data = words.map String.data
  | [], _, _ => rfl
  | [w], i, hws => by
    have hw := hws w (List.mem_cons_self w [])
    have h1 : (buildJustified base extra i [w]) = w := rfl
    rw [h1]
    have h2 : w.data = w.data ++ ([] : List Char) := by simp
    rw [List.map_cons, List.map_nil]
    rw [show fieldsChars w.data = fieldsChars (w.data ++ []) by simp]
    rw [fieldsChars_word_append w.data [] hw.1 hw.2 (by intro r hr; simp at hr)]
    rfl
  | w :: w2 :: rest, i, hws => by
    have hw := hws w (List.mem_cons_self w _)
    have h1 : buildJustified base extra i (w :: w2 :: rest) =
        w ++ spacesStr (base + if i < extra then 1 else 0) ++
          buildJustified base extra (i + 1) (w2 :: rest) := by
      simp [buildJustified]
    rw [h1]
    have hk : 1 ≤ base + if i < extra then 1 else 0 := Nat.le_trans hbase (Nat.le_add_right _ _)
    have hdata : (w ++ spacesStr (base + if i < extra then 1 else 0) ++
        buildJustified base extra (i + 1) (w2 :: rest)).data =
        w.data ++ ((spacesStr (base + if i < extra then 1 else 0)).data ++
          (buildJustified base extra (i + 1) (w2 :: rest)).data) := by
      rw [String.data_append, String.data_append, List.append_assoc]
    rw [hdata]
    rw [fieldsChars_word_append w.data _ hw.1 hw.2 ?_]
    · rw [fieldsChars_spaces_append _ _ ?_]
      · rw [fields_buildJustified base extra hbase (w2 :: rest) (i + 1)
          (fun x hx => hws x (List.mem_cons_of_mem w hx))]
        rfl
      · intro c hc
        have : c ∈ List.replicate (base + if i < extra then 1 else 0) ' ' := hc
        rw [List.eq_of_mem_replicate this]
        rfl
    · intro r hr
      cases hgap : (base + if i < extra then 1 else 0) with
      | zero => omega
      | succ k =>
        rw [show (spacesStr (base + if i < extra then 1 else 0)).data =
          List.replicate (base + if i < extra then 1 else 0) ' ' from rfl, hgap] at hr
        simp [List.replicate_succ] at hr
        simp [← hr, isSpaceGo]

theorem length_buildJustified (base extra : Nat) :
    ∀ (words : List String) (i : Nat), words ≠ [] →
    (buildJustified base extra i words).length =
      sumLens words + base * (words.length - 1) +
        (min extra (i + (words.length - 1)) - min extra i)
  | [], _, hne => absurd rfl hne
  | [w], i, _ => by
    simp [buildJustified, sumLens]
  | w :: w2 :: rest, i, _ => by
    have h1 : buildJustified base extra i (w :: w2 :: rest) =
        w ++ spacesStr (base + if i < extra then 1 else 0) ++
          buildJustified base extra (i + 1) (w2 :: rest) := by
      simp [buildJustified]
    rw [h1, String.length_append, String.length_append]
    rw [length_buildJustified base extra (w2 :: rest) (i + 1) (by simp)]
    have hsp : (spacesStr (base + if i < extra then 1 else 0)).length =
        base + if i < extra then 1 else 0 := by
      simp [spacesStr]
    rw [hsp]
    have hsum : sumLens (w :: w2 :: rest) = w.length + sumLens (w2 :: rest) := by
      simp [sumLens]
    rw [hsum]
    simp only [List.length_cons, Nat.add_sub_cancel, Nat.mul_succ, Nat.min_def]
    split_ifs <;> omega

theorem mem_data_buildJustified (base extra : Nat) :
    ∀ (words : List String) (i : Nat) (c : Char),
    c ∈ (buildJustified base extra i words).data →
    (∃ w ∈ words, c ∈ w.data) ∨ c = ' '
  | [], _, c, hc => by simp [buildJustified] at hc
  | [w], i, c, hc => by
    rw [show buildJustified base extra i [w] = w from rfl] at hc
    exact Or.inl ⟨w, List.mem_cons_self w [], hc⟩
  | w :: w2 :: rest, i, c, hc => by
    rw [show buildJustified base extra i (w :: w2 :: rest) =
      w ++ spacesStr (base + if i < extra then 1 else 0) ++
        buildJustified base extra (i + 1) (w2 :: rest) from by simp [buildJustified],
      String.data_append, String.data_append] at hc
    rcases List.mem_append.mp hc with hc1 | hc2
    · rcases List.mem_append.mp hc1 with hw | hsp
      · exact Or.inl ⟨w, List.mem_cons_self w _, hw⟩
      · exact Or.inr (List.eq_of_mem_replicate hsp)
    · rcases mem_data_buildJustified base extra (w2 :: rest) (i + 1) c hc2 with ⟨x, hx, hcx⟩ | he
      · exact Or.inl ⟨x, List.mem_cons_of_mem w hx, hcx⟩
      · exact Or.inr he

theorem noNL_justifyLine (total : Nat) (width : Int) (i : Nat) (raw : String)
    (hraw : '\n' ∉ raw.data) : '\n' ∉ (justifyLine total width i raw).data := by
  have htrim : '\n' ∉ (trimGo raw).data :=
    fun hm => hraw (mem_trimChars raw.data '\n' hm)
  unfold justifyLine
  by_cases hb : trimGo raw = ""
  · simp [hb]
  · simp only [hb, if_false]
    by_cases hskip : i = total - 1 ∨ total = 1 ∨ (fieldsGo (trimGo raw)).length ≤ 1 ∨
        ((trimGo raw).length : Int) < justifyThreshold width
    · simp only [hskip, if_true]
      exact htrim
    · simp only [hskip, if_false]
      by_cases hg : ((fieldsGo (trimGo raw)).length : Int) - 1 ≤ 0 ∨
          width - (sumLens (fieldsGo (trimGo raw)) : Nat) < ((fieldsGo (trimGo raw)).length : Int) - 1
      · simp only [hg, if_true]
        exact htrim
      · simp only [hg, if_false]
        intro hm
        rcases mem_data_buildJustified _ _ _ _ _ hm with ⟨w, hw, hcw⟩ | he
        · rcases List.mem_map.mp hw with ⟨wl, hwl, rfl⟩
          have := (fieldsChars_props (trimGo raw).data wl hwl).2 '\n' hcw
          simp [isSpaceGo] at this
        · simp at he

theorem mem_mapIdxFrom (f : Nat → α → β) :
    ∀ (l : List α) (k : Nat) (y : β), y ∈ mapIdxFrom f k l → ∃ i x, x ∈ l ∧ y = f i x
  | [], _, y, hy => by simp [mapIdxFrom] at hy
  | a :: as, k, y, hy => by
    rw [show mapIdxFrom f k (a :: as) = f k a :: mapIdxFrom f (k + 1) as from rfl] at hy
    rcases List.mem_cons.mp hy with rfl | hy2
    · exact ⟨k, a, List.mem_cons_self a as, rfl⟩
    · rcases mem_mapIdxFrom f as (k + 1) y hy2 with ⟨i, x, hx, hyx⟩
      exact ⟨i, x, List.mem_cons_of_mem a hx, hyx⟩

theorem getD_map_data : ∀ (ls : List String) (i : Nat), i < ls.length →
    (ls.map String.data).getD i [] = (ls.getD i "").data
  | [], i, h => by simp at h
  | s :: ss, 0, _ => by simp
  | s :: ss, i + 1, h => by
    simp only [List.map_cons, List.getD_cons_succ]
    exact getD_map_data ss i (by simpa using h)

theorem getD_map_mk : ∀ (ls : List (List Char)) (i : Nat), i < ls.length →
    (ls.map fun l => (⟨l⟩ : String)).getD i "" = ⟨ls.getD i []⟩
  | [], i, h => by simp at h
  | s :: ss, 0, _ => by simp
  | s :: ss, i + 1, h => by
    simp only [List.map_cons, List.getD_cons_succ]
    exact getD_map_mk ss i (by simpa using h)

/-- The split lines of `justifyText`'s output are exactly the per-line
results: justification operates line by line. -/
theorem splitNLc_justifyText (text : String) (width : Int) :
    splitNLc (justifyText text width).data =
      (mapIdxFrom (justifyLine (linesOf text).length width) 0 (linesOf text)).map
        String.data := by
  have hjt : (justifyText text width).data =
      joinNLc ((mapIdxFrom (justifyLine (linesOf text).length width) 0
        (linesOf text)).map String.data) := rfl
  rw [hjt]
  apply splitNLc_joinNLc
  · have hlen : ((mapIdxFrom (justifyLine (linesOf text).length width) 0
        (linesOf text)).map String.data).length = (splitNLc text.data).length := by
      rw [List.length_map, length_mapIdxFrom]
      simp [linesOf]
    intro hcon
    rw [hcon] at hlen
    exact splitNLc_ne_nil text.data (List.length_eq_zero.mp hlen.symm)
  · intro l hl
    rcases List.mem_map.mp hl with ⟨s, hs, rfl⟩
    rcases mem_mapIdxFrom _ _ _ _ hs with ⟨i, x, hx, rfl⟩
    rcases List.mem_map.mp hx with ⟨piece, hpiece, rfl⟩
    exact noNL_justifyLine _ width i _ (noNL_mem_splitNLc text.data piece hpiece)

/-- Justification preserves the number of lines. -/
theorem numLines_justifyText (text : String) (width : Int) :
    numLines (justifyText text width) = numLines text := by
  unfold numLines
  rw [splitNLc_justifyText, List.length_map, length_mapIdxFrom]
  simp [linesOf]

/-- The `i`-th output line of `justifyText` is `justifyLine` of the `i`-th
input line. -/
theorem lineAt_justifyText (text : String) (width : Int) (i : Nat)
    (hi : i < numLines text) :
    lineAt (justifyText text width) i =
      justifyLine (numLines text) width i (lineAt text i) := by
  have hlines : (linesOf text).length = numLines text := by simp [linesOf, numLines]
  unfold lineAt
  rw [splitNLc_justifyText]
  rw [getD_map_data _ i (by rw [length_mapIdxFrom]; omega)]
  rw [getD_mapIdxFrom _ "" "" _ 0 i (by omega)]
  have hgetd : (linesOf text).getD i "" = (⟨(splitNLc text.data).getD i []⟩ : String) := by
    unfold linesOf
    exact getD_map_mk _ i (by simpa [numLines] using hi)
  rw [Nat.zero_add, hgetd, hlines]

theorem specJustified_cons (w w2 : String) (rest : List String) (g : Nat) (gs : List Nat) :
    specJustified (w :: w2 :: rest) (g :: gs) =
      w ++ spacesStr g ++ specJustified (w2 :: rest) gs := rfl

theorem buildJustified_eq_spec (base extra : Nat) :
    ∀ (words : List String) (i : Nat),
    buildJustified base extra i words =
      specJustified words ((List.range (words.length - 1)).map
        fun g => base + if i + g < extra then 1 else 0)
  | [], _ => rfl
  | [w], _ => rfl
  | w :: w2 :: rest, i => by
    have hlen : (w :: w2 :: rest).length - 1 = rest.length + 1 := by simp
    rw [hlen]
    simp only [List.range_succ_eq_map, List.map_cons, List.map_map, Nat.add_zero]
    rw [specJustified_cons,
      show buildJustified base extra i (w :: w2 :: rest) =
        w ++ spacesStr (base + if i < extra then 1 else 0) ++
          buildJustified base extra (i + 1) (w2 :: rest) from rfl]
    rw [buildJustified_eq_spec base extra (w2 :: rest) (i + 1)]
    have hgaps : ((List.range rest.length).map
        ((fun g => base + if i + g < extra then 1 else 0) ∘ Nat.succ)) =
        ((List.range ((w2 :: rest).length - 1)).map
          fun g => base + if (i + 1) + g < extra then 1 else 0) := by
      simp only [List.length_cons, Nat.add_sub_cancel]
      apply List.map_congr_left
      intro g _
      have h3 : i + Nat.succ g = i + 1 + g := by omega
      simp [Function.comp, h3]
    rw [hgaps]

/-- C10: justification never merges, drops, or adds lines — `justifyText`
returns exactly one output line per input line, and a blank input line
yields an empty output line. -/
theorem c10_justify_preserves_lines (text : String) (width : Int) :
    numLines (justifyText text width) = numLines text ∧
    (∀ i, i < numLines text → trimGo (lineAt text i) = "" →
      lineAt (justifyText text width) i = "") := by
  refine ⟨numLines_justifyText text width, ?_⟩
  intro i hi hblank
  rw [lineAt_justifyText text width i hi]
  unfold justifyLine
  simp [hblank]

theorem c10_witness :
    numLines (justifyText "a\n \nb" 5) = numLines "a\n \nb" ∧
    lineAt (justifyText "a\n \nb" 5) 1 = "" :=
  ⟨(c10_justify_preserves_lines "a\n \nb" 5).1,
   (c10_justify_preserves_lines "a\n \nb" 5).2 1 (by decide) (by decide)⟩

/-- C4 counterexample: on the block `"a \nb"` at width 80, the first line
has at most one word — a skip condition — yet the returned line differs
from the input line (its surrounding whitespace is trimmed away), so the
justifier does not pass it through unchanged. -/
theorem c4_counterexample :
    (fieldsGo (trimGo (lineAt "a \nb" 0))).length ≤ 1 ∧
    lineAt (justifyText "a \nb" 80) 0 ≠ lineAt "a \nb" 0 := by decide

/-- C4 amended: whenever any skip condition holds for a line — last line
of the block, single-line block, at most one word, trimmed length below
75% of the width, or no room (`gaps ≤ 0` or `totalSpaces < gaps`) — the
justifier emits the line with only its surrounding whitespace trimmed,
performing no space redistribution. -/
theorem c4_justify_skip_conditions (text : String) (width : Int) (i : Nat)
    (hi : i < numLines text)
    (hskip : i = numLines text - 1 ∨ numLines text = 1 ∨
      (fieldsGo (trimGo (lineAt text i))).length ≤ 1 ∨
      ((trimGo (lineAt text i)).length : Int) < justifyThreshold width ∨
      ((fieldsGo (trimGo (lineAt text i))).length : Int) - 1 ≤ 0 ∨
      width - (sumLens (fieldsGo (trimGo (lineAt text i))) : Nat) <
        ((fieldsGo (trimGo (lineAt text i))).length : Int) - 1) :
    lineAt (justifyText text width) i = trimGo (lineAt text i) := by
  rw [lineAt_justifyText text width i hi]
  unfold justifyLine
  by_cases hb : trimGo (lineAt text i) = ""
  · simp [hb]
  · simp only [hb, if_false]
    by_cases h1 : i = numLines text - 1 ∨ numLines text = 1 ∨
        (fieldsGo (trimGo (lineAt text i))).length ≤ 1 ∨
        ((trimGo (lineAt text i)).length : Int) < justifyThreshold width
    · simp [h1]
    · simp only [h1, if_false]
      have h2 : ((fieldsGo (trimGo (lineAt text i))).length : Int) - 1 ≤ 0 ∨
          width - (sumLens (fieldsGo (trimGo (lineAt text i))) : Nat) <
            ((fieldsGo (trimGo (lineAt text i))).length : Int) - 1 := by
        rcases hskip with h | h | h | h | h | h
        · exact absurd (Or.inl h) h1
        · exact absurd (Or.inr (Or.inl h)) h1
        · exact absurd (Or.inr (Or.inr (Or.inl h))) h1
        · exact absurd (Or.inr (Or.inr (Or.inr h))) h1
        · exact Or.inl h
        · exact Or.inr h
      rw [if_pos h2]

theorem c4_witness :
    0 < numLines "one two\nend" ∧
    ((trimGo (lineAt "one two\nend" 0)).length : Int) < justifyThreshold 80 ∧
    lineAt (justifyText "one two\nend" 80) 0 = trimGo (lineAt "one two\nend" 0) :=
  ⟨by decide, by decide,
   c4_justify_skip_conditions "one two\nend" 80 0 (by decide)
     (Or.inr (Or.inr (Or.inr (Or.inl (by decide)))))⟩

/-- C3 counterexample: at width 10 on the block `"ab   cd   ef\nx"`, the
first line passes every applied-justification condition (not last, block
has two lines, three words, trimmed length at least 75% of the width,
enough spaces to distribute), yet the justified line is shorter than the
input line: the justifier deleted spaces from the over-wide gaps, so it
does not only insert spaces. -/
theorem c3_counterexample :
    (trimGo (lineAt "ab   cd   ef\nx" 0) ≠ "" ∧
     0 ≠ numLines "ab   cd   ef\nx" - 1 ∧
     numLines "ab   cd   ef\nx" ≠ 1 ∧
     1 < (fieldsGo (trimGo (lineAt "ab   cd   ef\nx" 0))).length ∧
     ¬(((trimGo (lineAt "ab   cd   ef\nx" 0)).length : Int) < justifyThreshold 10) ∧
     ((fieldsGo (trimGo (lineAt "ab   cd   ef\nx" 0))).length : Int) - 1 ≤
       10 - (sumLens (fieldsGo (trimGo (lineAt "ab   cd   ef\nx" 0))) : Nat)) ∧
    (lineAt (justifyText "ab   cd   ef\nx" 10) 0).length <
      (lineAt "ab   cd   ef\nx" 0).length := by decide

/-- C3 amended: on every line where justification is applied, the word
sequence and word order are unchanged and each inter-word gap is replaced
by `base = totalSpaces / gaps` spaces plus one extra in the first
`totalSpaces mod gaps` gaps (left-biased), and the resulting line's
length equals exactly `width`.  (The original "only inserts spaces" fails
when an input gap is wider than its justified gap; the justifier rewrites
gaps rather than inserting into them.) -/
theorem c3_justify_applied (text : String) (width : Int) (i : Nat)
    (hi : i < numLines text)
    (hblank : trimGo (lineAt text i) ≠ "")
    (hlast : i ≠ numLines text - 1)
    (honly : numLines text ≠ 1)
    (hwords : 1 < (fieldsGo (trimGo (lineAt text i))).length)
    (hshort : ¬(((trimGo (lineAt text i)).length : Int) < justifyThreshold width))
    (hroom : ((fieldsGo (trimGo (lineAt text i))).length : Int) - 1 ≤
      width - (sumLens (fieldsGo (trimGo (lineAt text i))) : Nat)) :
    lineAt (justifyText text width) i =
      specJustified (fieldsGo (trimGo (lineAt text i)))
        (specGapSizes
          ((width - (sumLens (fieldsGo (trimGo (lineAt text i))) : Nat)).tdiv
            (((fieldsGo (trimGo (lineAt text i))).length : Int) - 1)).toNat
          ((width - (sumLens (fieldsGo (trimGo (lineAt text i))) : Nat)).tmod
            (((fieldsGo (trimGo (lineAt text i))).length : Int) - 1)).toNat
          ((fieldsGo (trimGo (lineAt text i))).length - 1)) ∧
    fieldsGo (lineAt (justifyText text width) i) =
      fieldsGo (trimGo (lineAt text i)) ∧
    ((lineAt (justifyText text width) i).length : Int) = width := by
  set line := trimGo (lineAt text i) with hline
  set words := fieldsGo line with hwordsdef
  set ts : Int := width - (sumLens words : Nat) with hts
  set gaps : Int := (words.length : Int) - 1 with hgaps
  have hgapspos : 0 < gaps := by
    rw [hgaps]
    have : (1 : Int) < (words.length : Int) := by exact_mod_cast hwords
    omega
  have htspos : 0 < ts := lt_of_lt_of_le hgapspos hroom
  have hout : lineAt (justifyText text width) i =
      buildJustified (ts.tdiv gaps).toNat (ts.tmod gaps).toNat 0 words := by
    rw [lineAt_justifyText text width i hi]
    unfold justifyLine
    dsimp only
    rw [← hline, ← hwordsdef, ← hts, ← hgaps]
    rw [if_neg hblank]
    rw [if_neg (by
      push_neg
      exact ⟨hlast, honly, by omega, le_of_not_lt hshort⟩)]
    rw [if_neg (by
      push_neg
      exact ⟨by omega, by omega⟩)]
  have hbase1 : 1 ≤ (ts.tdiv gaps).toNat := by
    have heq : ts.tdiv gaps = ts / gaps := Int.tdiv_eq_ediv (le_of_lt htspos) (le_of_lt hgapspos)
    have h1e : 1 ≤ ts / gaps := by
      rw [Int.le_ediv_iff_mul_le hgapspos]
      omega
    rw [heq]
    omega
  have hwprops : ∀ w ∈ words, w.data ≠ [] ∧ ∀ c ∈ w.data, isSpaceGo c = false := by
    intro w hw
    rcases List.mem_map.mp hw with ⟨wl, hwl, rfl⟩
    exact fieldsChars_props line.data wl hwl
  refine ⟨?_, ?_, ?_⟩
  · rw [hout, buildJustified_eq_spec]
    unfold specGapSizes
    congr 1
    apply List.map_congr_left
    intro g _
    simp
  · rw [hout]
    unfold fieldsGo
    rw [fields_buildJustified _ _ hbase1 words 0 hwprops]
    rw [List.map_map]
    have hcomp : ((fun l => (⟨l⟩ : String)) ∘ String.data) = id := by
      funext s
      rfl
    rw [hcomp, List.map_id]
  · rw [hout]
    rw [length_buildJustified _ _ words 0 (by
      intro hcon
      rw [hcon] at hwords
      simp at hwords)]
    have hmodlt : ts.tmod gaps < gaps := Int.tmod_lt_of_pos ts hgapspos
    have hmodge : 0 ≤ ts.tmod gaps := Int.tmod_nonneg gaps (le_of_lt htspos)
    have hdivge : 0 ≤ ts.tdiv gaps := by
      have heq : ts.tdiv gaps = ts / gaps := Int.tdiv_eq_ediv (le_of_lt htspos) (le_of_lt hgapspos)
      rw [heq]
      exact Int.ediv_nonneg (le_of_lt htspos) (le_of_lt hgapspos)
    have hid : gaps * ts.tdiv gaps + ts.tmod gaps = ts := Int.tdiv_add_tmod ts gaps
    have hminE : min (ts.tmod gaps).toNat (0 + (words.length - 1)) = (ts.tmod gaps).toNat := by
      apply Nat.min_eq_left
      have h1 : ((ts.tmod gaps).toNat : Int) < gaps := by
        rw [Int.toNat_of_nonneg hmodge]
        exact hmodlt
      rw [hgaps] at h1
      omega
    rw [hminE]
    simp only [Nat.min_zero, Nat.sub_zero]
    push_cast
    rw [Int.toNat_of_nonneg hmodge, Int.toNat_of_nonneg hdivge]
    have hglen : ((words.length - 1 : Nat) : Int) = gaps := by
      rw [hgaps]
      have : (1 : Int) ≤ (words.length : Int) := by exact_mod_cast (le_of_lt hwords)
      omega
    rw [hglen]
    have : ts.tdiv gaps * gaps = gaps * ts.tdiv gaps := by ring
    rw [this]
    omega

theorem c3_witness :
    lineAt (justifyText "aa bb cc dd ee ff gg hh\nx" 24) 0 =
      specJustified (fieldsGo (trimGo (lineAt "aa bb cc dd ee ff gg hh\nx" 0)))
        (specGapSizes
          (((24 : Int) - (sumLens (fieldsGo (trimGo (lineAt "aa bb cc dd ee ff gg hh\nx" 0))) : Nat)).tdiv
            (((fieldsGo (trimGo (lineAt "aa bb cc dd ee ff gg hh\nx" 0))).length : Int) - 1)).toNat
          (((24 : Int) - (sumLens (fieldsGo (trimGo (lineAt "aa bb cc dd ee ff gg hh\nx" 0))) : Nat)).tmod
            (((fieldsGo (trimGo (lineAt "aa bb cc dd ee ff gg hh\nx" 0))).length : Int) - 1)).toNat
          ((fieldsGo (trimGo (lineAt "aa bb cc dd ee ff gg hh\nx" 0))).length - 1)) ∧
    fieldsGo (lineAt (justifyText "aa bb cc dd ee ff gg hh\nx" 24) 0) =
      fieldsGo (trimGo (lineAt "aa bb cc dd ee ff gg hh\nx" 0)) ∧
    ((lineAt (justifyText "aa bb cc dd ee ff gg hh\nx" 24) 0).length : Int) = 24 :=
  c3_justify_applied "aa bb cc dd ee ff gg hh\nx" 24 0 (by decide) (by decide)
    (by decide) (by decide) (by decide) (by decide) (by decide)

/-- C5: saving a (chapter, offset, finished) triple for a book key and
loading the same key returns exactly that triple; loading a key that was
never saved returns absent.  The `finished` field follows the spec
contract `save(bookKey, chapter, offset, finished)`; see `BookProgress`
and `saveProgress`. -/
theorem c5_progress_round_trip (p : ProgressData) (bookKey : String)
    (chapter offset : Int) (finished : Bool) :
    getBookProgress (saveProgress p bookKey chapter offset finished) bookKey =
      some ⟨bookKey, chapter, offset, finished⟩ ∧
    (∀ (q : ProgressData) (k : String), (∀ e ∈ q.books, e.1 ≠ k) →
      getBookProgress q k = none) := by
  constructor
  · unfold getBookProgress saveProgress
    simp
  · intro q k hk
    unfold getBookProgress
    rw [List.find?_eq_none.mpr (by
      intro e he
      simp [hk e he])]
    rfl

theorem c5_witness :
    getBookProgress (saveProgress emptyProgress "book.epub" 3 7 true) "book.epub" =
      some ⟨"book.epub", 3, 7, true⟩ ∧
    getBookProgress emptyProgress "other.epub" = none :=
  ⟨(c5_progress_round_trip emptyProgress "book.epub" 3 7 true).1,
   (c5_progress_round_trip emptyProgress "book.epub" 3 7 true).2 emptyProgress
     "other.epub" (by simp [emptyProgress])⟩

theorem updateViewport_currentChapter (m : ReaderState) :
    (updateViewport m).currentChapter = m.currentChapter := by
  unfold updateViewport
  cases hch : getChapter m.book m.currentChapter with
  | none => rfl
  | some ch => cases m.book.format <;> rfl

/-- C8: loading a book whose stored chapter index is at or beyond the
book's chapter count resolves the current chapter to 0; no error is
raised (the operation is a total function in the model). -/
theorem c8_stale_chapter_clamped (m : ReaderState) (book : Book)
    (saved : BookProgress)
    (hsaved : getBookProgress m.progress book.path = some saved)
    (hstale : saved.currentChapter ≥ (book.chapters.length : Int)) :
    (loadBook m book).currentChapter = 0 := by
  unfold loadBook
  dsimp only
  rw [hsaved]
  dsimp only
  rw [if_pos hstale, updateViewport_currentChapter]

theorem c8_witness :
    (loadBook
      ⟨⟨"", .txt, []⟩, 0, [], 0, "", 80,
        ⟨[("b.epub", ⟨"b.epub", 5, 2, false⟩)]⟩⟩
      ⟨"b.epub", .txt, [⟨"c1", "hello", .text "hello"⟩]⟩).currentChapter = 0 :=
  c8_stale_chapter_clamped _ _ ⟨"b.epub", 5, 2, false⟩ rfl (by decide)

/-- C1: the renderer evaluated at the failing input `<h2>A</h2>` (any
chapter whose rendered output starts with a block element).  The anchor
is recorded as the newline count of the untrimmed buffer (`"\n\n## A\n"`,
so 2), but the returned text is trimmed to the single line `"## A"`:
the anchor is not a valid line index into the returned text, against the
field's own documentation ("Line numbers where H2/H3 headings start")
and the stated invariant. -/
theorem c1_anchor_out_of_range :
    (renderWithHeadings 80 (.doc [.elem "html" [.elem "head" [],
      .elem "body" [.elem "h2" [.text "A"]]]])).headingPositions = [2] ∧
    numLines (renderWithHeadings 80 (.doc [.elem "html" [.elem "head" [],
      .elem "body" [.elem "h2" [.text "A"]]]])).text = 1 ∧
    ¬(∀ a ∈ (renderWithHeadings 80 (.doc [.elem "html" [.elem "head" [],
        .elem "body" [.elem "h2" [.text "A"]]]])).headingPositions,
      a < numLines (renderWithHeadings 80 (.doc [.elem "html" [.elem "head" [],
        .elem "body" [.elem "h2" [.text "A"]]]])).text) := by decide

theorem emit_panicked (s : String) (st : RState) :
    (emit s st).panicked = st.panicked := rfl

theorem writeStyledText_panicked (w : Int) (t : String) (ctx : renderContext)
    (st : RState) : (writeStyledText w t ctx st).panicked = st.panicked := by
  unfold writeStyledText
  dsimp only
  split_ifs <;> rfl

theorem elemClose_panicked (tag : String) (st : RState) :
    (elemClose tag st).panicked = st.panicked := by
  unfold elemClose
  split_ifs <;> rfl

theorem hrRender_panicked (w : Int) (st : RState) (hw : 0 ≤ w) :
    (hrRender w st).panicked = st.panicked := by
  unfold hrRender repeatStr
  rw [if_neg (not_lt.mpr (le_min hw (by norm_num)))]
  rfl

theorem elemOpen_panicked (tag : String) (ctx : renderContext) (st : RState)
    (hli : tag = "li" → 1 ≤ ctx.listLevel) :
    (elemOpen tag ctx st).panicked = st.panicked := by
  unfold elemOpen
  split_ifs <;> try rfl
  have hb : 1 ≤ ctx.listLevel := hli (by assumption)
  unfold repeatStr
  rw [if_neg (by omega)]
  rfl

mutual

theorem renderNode_no_panic : ∀ (w : Int) (n : Node) (ctx : renderContext) (st : RState),
    0 ≤ w → liSafeB ctx n = true → st.panicked = false →
    (renderNode w n ctx st).panicked = false
  | w, .text s, ctx, st => fun _ _ hst => by
    unfold renderNode
    dsimp only
    split_ifs <;> first | exact hst | (rw [writeStyledText_panicked]; exact hst)
  | w, .elem tag cs, ctx, st => fun hw hsafe hst => by
    unfold renderNode
    have hparts : (tag = "li" → 1 ≤ ctx.listLevel) ∧
        liSafeBs (childCtx tag ctx) cs = true := by
      rw [show liSafeB ctx (.elem tag cs) =
        ((if tag = "li" then decide (1 ≤ ctx.listLevel) else true) &&
          liSafeBs (childCtx tag ctx) cs) from rfl] at hsafe
      rw [Bool.and_eq_true] at hsafe
      refine ⟨?_, hsafe.2⟩
      intro hl
      have := hsafe.1
      rw [if_pos hl] at this
      exact of_decide_eq_true this
    split_ifs
    · exact hst
    · rw [hrRender_panicked w st hw]
      exact hst
    · rw [elemClose_panicked]
      refine renderNodes_no_panic w cs (childCtx tag ctx) (elemOpen tag ctx st) hw
        hparts.2 ?_
      rw [elemOpen_panicked tag ctx st hparts.1]
      exact hst
  | w, .doc cs, ctx, st => fun hw hsafe hst => by
    unfold renderNode
    exact renderNodes_no_panic w cs ctx st hw hsafe hst

theorem renderNodes_no_panic : ∀ (w : Int) (cs : List Node) (ctx : renderContext)
    (st : RState),
    0 ≤ w → liSafeBs ctx cs = true → st.panicked = false →
    (renderNodes w cs ctx st).panicked = false
  | _, [], _, _ => fun _ _ hst => hst
  | w, c :: rest, ctx, st => fun hw hsafe hst => by
    unfold renderNodes
    rw [show liSafeBs ctx (c :: rest) =
      (liSafeB ctx c && liSafeBs ctx rest) from rfl,
      Bool.and_eq_true] at hsafe
    exact renderNodes_no_panic w rest ctx _ hw hsafe.2
      (renderNode_no_panic w c ctx st hw hsafe.1 hst)

end

/-- C2 amended: rendering is total — no panic — for every markup tree in
which each `li` element sits inside at least one list, at every
non-negative width (a non-positive width is defaulted to 80 for all text
wrapping).  The exceptions the counterexample forces: an `li` at list
depth 0 panics at any width, and `hr` at a negative width panics, both
via a negative `strings.Repeat` count.  `justifyText` and the navigation
model operations are total Lean functions over all inputs by
construction. -/
theorem c2_render_no_panic (w : Int) (n : Node) (hw : 0 ≤ w)
    (hsafe : liSafeB ctx0 n = true) :
    (renderRun w n).panicked = false :=
  renderNode_no_panic w n ctx0 ⟨"", [], false⟩ hw hsafe rfl

/-- C2 counterexample: a chapter containing a single `li` outside any
list — markup the HTML parser produces for `"<li>x</li>"` — makes the
render panic in Go (`strings.Repeat("  ", -1)`), at the perfectly
ordinary width 80. -/
theorem c2_counterexample :
    (renderRun 80 (.doc [.elem "html" [.elem "head" [],
      .elem "body" [.elem "li" [.text "x"]]]])).panicked = true := by decide

theorem c2_witness :
    0 ≤ (80 : Int) ∧
    liSafeB ctx0 (.doc [.elem "ul" [.elem "li" [.text "a"]]]) = true ∧
    (renderRun 80 (.doc [.elem "ul" [.elem "li" [.text "a"]]])).panicked = false :=
  ⟨by decide, by decide, c2_render_no_panic 80 _ (by decide) (by decide)⟩

theorem findFirstGT_eq_find? : ∀ (ps : List Nat) (cur : Int),
    findFirstGT ps cur = ps.find? (fun (p : Nat) => decide (cur < (p : Int)))
  | [], _ => rfl
  | p :: rest, cur => by
    rw [show findFirstGT (p :: rest) cur =
      (if (p : Int) > cur then some p else findFirstGT rest cur) from rfl]
    rw [List.find?_cons]
    by_cases h : cur < (p : Int)
    · simp [h]
    · simp [h, findFirstGT_eq_find? rest cur]

theorem find?_append_model (p : α → Bool) : ∀ (l₁ l₂ : List α),
    (l₁ ++ l₂).find? p =
      (match l₁.find? p with
       | some x => some x
       | none => l₂.find? p)
  | [], _ => by simp
  | a :: l₁, l₂ => by
    rw [List.cons_append, List.find?_cons, List.find?_cons]
    by_cases h : p a
    · simp [h]
    · simp only [h]
      rw [find?_append_model p l₁ l₂]

theorem findLastLT_eq : ∀ (ps : List Nat) (cur : Int),
    findLastLT ps cur = ps.reverse.find? (fun (p : Nat) => decide ((p : Int) < cur))
  | [], _ => rfl
  | p :: rest, cur => by
    rw [show findLastLT (p :: rest) cur =
      (match findLastLT rest cur with
       | some q => some q
       | none => if (p : Int) < cur then some p else none) from rfl]
    rw [List.reverse_cons, find?_append_model, ← findLastLT_eq rest cur]
    cases findLastLT rest cur with
    | some q => rfl
    | none =>
      by_cases h : (p : Int) < cur <;> simp [h]

theorem getChapter_isSome (b : Book) (i : Int) (h0 : 0 ≤ i)
    (hlen : i < (b.chapters.length : Int)) : ∃ ch, getChapter b i = some ch := by
  unfold getChapter
  rw [if_neg (not_lt.mpr h0)]
  have hi : i.toNat < b.chapters.length := by omega
  exact ⟨_, List.getElem?_eq_getElem hi⟩

theorem updateViewport_fields (m : ReaderState) (ch : Chapter)
    (hch : getChapter m.book m.currentChapter = some ch) :
    (updateViewport m).yOffset = 0 ∧
    (updateViewport m).headingPositions =
      specAnchorsOfChapter m.book m.width m.currentChapter := by
  unfold updateViewport specAnchorsOfChapter
  rw [hch]
  cases m.book.format <;> exact ⟨rfl, rfl⟩

/-- C6: `nextHeading` moves to the first anchor strictly greater than the
current line offset when one exists (same chapter, anchor list
unchanged); with none left and a next chapter available it advances to
the next chapter, resets the offset to the top and recomputes the
anchors by re-rendering that chapter; at the last chapter it is a no-op.
All cases are total — no error path exists. -/
theorem c6_next_heading (m : ReaderState) :
    (∀ a, m.headingPositions.find? (fun (p : Nat) => decide (m.yOffset < (p : Int))) = some a →
      nextHeading m = { m with yOffset := (a : Int) }) ∧
    (m.headingPositions.find? (fun (p : Nat) => decide (m.yOffset < (p : Int))) = none →
      0 ≤ m.currentChapter →
      m.currentChapter < (m.book.chapters.length : Int) - 1 →
      (nextHeading m).currentChapter = m.currentChapter + 1 ∧
      (nextHeading m).yOffset = 0 ∧
      (nextHeading m).headingPositions =
        specAnchorsOfChapter m.book m.width (m.currentChapter + 1)) ∧
    (m.headingPositions.find? (fun (p : Nat) => decide (m.yOffset < (p : Int))) = none →
      ¬(m.currentChapter < (m.book.chapters.length : Int) - 1) →
      nextHeading m = m) := by
  refine ⟨?_, ?_, ?_⟩
  · intro a ha
    unfold nextHeading
    rw [findFirstGT_eq_find?, ha]
  · intro hnone h0 hlt
    unfold nextHeading
    rw [findFirstGT_eq_find?, hnone]
    dsimp only
    rw [if_pos hlt]
    obtain ⟨ch, hch⟩ := getChapter_isSome m.book (m.currentChapter + 1) (by omega) (by omega)
    have hfields := updateViewport_fields { m with currentChapter := m.currentChapter + 1 }
      ch (by simpa using hch)
    refine ⟨?_, by simpa using hfields.1, by simpa using hfields.2⟩
    rw [updateViewport_currentChapter]
  · intro hnone hge
    unfold nextHeading
    rw [findFirstGT_eq_find?, hnone]
    dsimp only
    rw [if_neg hge]

theorem c6_witness :
    ((⟨⟨"b", .epub, [⟨"c0", "x", .doc [.text "x"]⟩,
        ⟨"c1", "<h2>A</h2>", .doc [.elem "h2" [.text "A"]]⟩]⟩, 0, [], 0, "", 80,
        emptyProgress⟩ : ReaderState).headingPositions.find?
      (fun (p : Nat) => decide ((0 : Int) < (p : Int))) = none) ∧
    ((nextHeading ⟨⟨"b", .epub, [⟨"c0", "x", .doc [.text "x"]⟩,
        ⟨"c1", "<h2>A</h2>", .doc [.elem "h2" [.text "A"]]⟩]⟩, 0, [], 0, "", 80,
        emptyProgress⟩).currentChapter = 1 ∧
      (nextHeading ⟨⟨"b", .epub, [⟨"c0", "x", .doc [.text "x"]⟩,
        ⟨"c1", "<h2>A</h2>", .doc [.elem "h2" [.text "A"]]⟩]⟩, 0, [], 0, "", 80,
        emptyProgress⟩).yOffset = 0 ∧
      (nextHeading ⟨⟨"b", .epub, [⟨"c0", "x", .doc [.text "x"]⟩,
        ⟨"c1", "<h2>A</h2>", .doc [.elem "h2" [.text "A"]]⟩]⟩, 0, [], 0, "", 80,
        emptyProgress⟩).headingPositions =
        specAnchorsOfChapter ⟨"b", .epub, [⟨"c0", "x", .doc [.text "x"]⟩,
          ⟨"c1", "<h2>A</h2>", .doc [.elem "h2" [.text "A"]]⟩]⟩ 80 1) :=
  ⟨by decide,
   (c6_next_heading _).2.1 (by decide) (by decide) (by decide)⟩

/-- C7: `prevHeading` moves to the last anchor strictly less than the
current line offset when one exists; with none left and a previous
chapter available it moves to the previous chapter and lands on that
chapter's last recomputed anchor when it has any (e.g. anchors `[3, 9]`
land at offset 9), otherwise at the top; at chapter 0 with no earlier
anchor it is a no-op. -/
theorem c7_prev_heading (m : ReaderState) :
    (∀ a, m.headingPositions.reverse.find?
        (fun (p : Nat) => decide ((p : Int) < m.yOffset)) = some a →
      prevHeading m = { m with yOffset := (a : Int) }) ∧
    (m.headingPositions.reverse.find?
        (fun (p : Nat) => decide ((p : Int) < m.yOffset)) = none →
      0 < m.currentChapter →
      m.currentChapter ≤ (m.book.chapters.length : Int) →
      (prevHeading m).currentChapter = m.currentChapter - 1 ∧
      (prevHeading m).headingPositions =
        specAnchorsOfChapter m.book m.width (m.currentChapter - 1) ∧
      (prevHeading m).yOffset =
        (match (specAnchorsOfChapter m.book m.width (m.currentChapter - 1)).getLast? with
         | some a => (a : Int)
         | none => 0)) ∧
    (m.headingPositions.reverse.find?
        (fun (p : Nat) => decide ((p : Int) < m.yOffset)) = none →
      ¬(0 < m.currentChapter) → prevHeading m = m) := by
  refine ⟨?_, ?_, ?_⟩
  · intro a ha
    unfold prevHeading
    rw [findLastLT_eq, ha]
  · intro hnone h0 hlen
    unfold prevHeading
    rw [findLastLT_eq, hnone]
    dsimp only
    rw [if_pos h0]
    obtain ⟨ch, hch⟩ := getChapter_isSome m.book (m.currentChapter - 1) (by omega) (by omega)
    have hfields := updateViewport_fields { m with currentChapter := m.currentChapter - 1 }
      ch (by simpa using hch)
    have hanch : (updateViewport { m with currentChapter := m.currentChapter - 1 }).headingPositions =
        specAnchorsOfChapter m.book m.width (m.currentChapter - 1) := by
      simpa using hfields.2
    rw [hanch]
    cases hlast : (specAnchorsOfChapter m.book m.width (m.currentChapter - 1)).getLast? with
    | some a =>
      refine ⟨?_, ?_, rfl⟩
      · simp [updateViewport_currentChapter]
      · simp [hanch]
    | none =>
      refine ⟨?_, ?_, ?_⟩
      · simp [updateViewport_currentChapter]
      · simp [hanch]
      · simpa using hfields.1
  · intro hnone hge
    unfold prevHeading
    rw [findLastLT_eq, hnone]
    dsimp only
    rw [if_neg hge]

theorem c7_witness :
    ((⟨⟨"b", .epub, [⟨"c0", "<h2>A</h2><h2>B</h2>",
        .doc [.elem "h2" [.text "A"], .elem "h2" [.text "B"]]⟩,
        ⟨"c1", "x", .doc [.text "x"]⟩]⟩, 1, [], 0, "", 80,
        emptyProgress⟩ : ReaderState).headingPositions.reverse.find?
      (fun (p : Nat) => decide ((p : Int) < (0 : Int))) = none) ∧
    specAnchorsOfChapter ⟨"b", .epub, [⟨"c0", "<h2>A</h2><h2>B</h2>",
      .doc [.elem "h2" [.text "A"], .elem "h2" [.text "B"]]⟩,
      ⟨"c1", "x", .doc [.text "x"]⟩]⟩ 80 0 = [2, 5] ∧
    ((prevHeading ⟨⟨"b", .epub, [⟨"c0", "<h2>A</h2><h2>B</h2>",
        .doc [.elem "h2" [.text "A"], .elem "h2" [.text "B"]]⟩,
        ⟨"c1", "x", .doc [.text "x"]⟩]⟩, 1, [], 0, "", 80,
        emptyProgress⟩).currentChapter = 0 ∧
      (prevHeading ⟨⟨"b", .epub, [⟨"c0", "<h2>A</h2><h2>B</h2>",
        .doc [.elem "h2" [.text "A"], .elem "h2" [.text "B"]]⟩,
        ⟨"c1", "x", .doc [.text "x"]⟩]⟩, 1, [], 0, "", 80,
        emptyProgress⟩).headingPositions =
        specAnchorsOfChapter ⟨"b", .epub, [⟨"c0", "<h2>A</h2><h2>B</h2>",
          .doc [.elem "h2" [.text "A"], .elem "h2" [.text "B"]]⟩,
          ⟨"c1", "x", .doc [.text "x"]⟩]⟩ 80 0 ∧
      (prevHeading ⟨⟨"b", .epub, [⟨"c0", "<h2>A</h2><h2>B</h2>",
        .doc [.elem "h2" [.text "A"], .elem "h2" [.text "B"]]⟩,
        ⟨"c1", "x", .doc [.text "x"]⟩]⟩, 1, [], 0, "", 80,
        emptyProgress⟩).yOffset =
        (match (specAnchorsOfChapter ⟨"b", .epub, [⟨"c0", "<h2>A</h2><h2>B</h2>",
          .doc [.elem "h2" [.text "A"], .elem "h2" [.text "B"]]⟩,
          ⟨"c1", "x", .doc [.text "x"]⟩]⟩ 80 0).getLast? with
         | some a => (a : Int)
         | none => 0)) :=
  ⟨by decide, by decide,
   (c7_prev_heading _).2.1 (by decide) (by decide) (by decide)⟩

/-- C9: the Style Context seen along any child path depends only on the
ancestors' element deltas — replacing a sibling subtree never changes
it — and rendering threads only the output state between siblings: the
second group of children is rendered with the same context regardless of
what the first group rendered (copy-on-descend; the parent's context is
unchanged after a child subtree renders). -/
theorem c9_context_isolation :
    (∀ (ctx : renderContext) (t : String) (cs : List Node) (i j : Nat) (c' : Node)
      (p : List Nat), i ≠ j →
      ctxSeen ctx (.elem t (cs.set j c')) (i :: p) = ctxSeen ctx (.elem t cs) (i :: p)) ∧
    (∀ (w : Int) (cs₁ cs₂ : List Node) (ctx : renderContext) (st : RState),
      renderNodes w (cs₁ ++ cs₂) ctx st =
        renderNodes w cs₂ ctx (renderNodes w cs₁ ctx st)) := by
  constructor
  · intro ctx t cs i j c' p hij
    rw [show ctxSeen ctx (.elem t (cs.set j c')) (i :: p) =
      (match (cs.set j c')[i]? with
       | some c => ctxSeen (childCtx t ctx) c p
       | none => none) from rfl]
    rw [show ctxSeen ctx (.elem t cs) (i :: p) =
      (match cs[i]? with
       | some c => ctxSeen (childCtx t ctx) c p
       | none => none) from rfl]
    rw [List.getElem?_set_ne (Ne.symm hij)]
  · intro w cs₁ cs₂ ctx st
    induction cs₁ generalizing st with
    | nil => rfl
    | cons c rest ih =>
      rw [List.cons_append]
      rw [show renderNodes w (c :: (rest ++ cs₂)) ctx st =
        renderNodes w (rest ++ cs₂) ctx (renderNode w c ctx st) from rfl]
      rw [ih]
      rfl

theorem c9_witness :
    ctxSeen ctx0 (.elem "em" ([Node.text "a", Node.text "b"].set 1 (.text "z"))) [0] =
      ctxSeen ctx0 (.elem "em" [Node.text "a", Node.text "b"]) [0] :=
  c9_context_isolation.1 ctx0 "em" [Node.text "a", Node.text "b"] 0 1 (.text "z") []
    (by decide)
